import Mathlib

/-!
Verification development for the workout-sheet parsing and publishing pipeline.

Strings are modelled as `List Char`.  The JavaScript regular expressions used by
the source are embedded as deterministic scanning functions: for the patterns at
hand (literal alternatives followed by a fixed-width character class) the JS
backtracking search is equivalent to the committed, ordered tries implemented
below, because no failing branch can be rescued by a shorter choice of an
earlier optional group (the groups start with distinct characters).
-/

namespace Workout

/-- Strings are modelled as lists of characters. -/
abbrev Str := List Char

/-- JavaScript `String.prototype.trim` whitespace (the characters relevant here:
ASCII whitespace, NBSP and the BOM). -/
def isWs (c : Char) : Bool :=
  c = ' ' || c = '\t' || c = '\n' || c = '\r' || c = '\x0B' || c = '\x0C' ||
  c = '\u00A0' || c = '\uFEFF'

/-- `line.trim()`: drop whitespace from both ends. -/
def trim (s : Str) : Str :=
  ((s.dropWhile isWs).reverse.dropWhile isWs).reverse

/-- `cellContent.split('\n')`. -/
def splitLines : Str → List Str
  | [] => [[]]
  | c :: rest =>
    let r := splitLines rest
    if c = '\n' then [] :: r
    else
      match r with
      | [] => [[c]]
      | l :: ls => (c :: l) :: ls

/-- `cellContent.split('\n').map(line => line.trim()).filter(line => line)`. -/
def cellLines (s : Str) : List Str :=
  ((splitLines s).map trim).filter (fun l => !l.isEmpty)

/-! ## The YouTube URL pattern

`/(?:https?:\/\/)?(?:www\.)?(?:youtube\.com\/watch\?v=|youtube\.com\/shorts\/|youtu\.be\/)([a-zA-Z0-9_-]{11})/g`
-/

/-- The identifier character class `[a-zA-Z0-9_-]`. -/
def isIdChar (c : Char) : Bool :=
  ('a' ≤ c && c ≤ 'z') || ('A' ≤ c && c ≤ 'Z') || ('0' ≤ c && c ≤ '9') ||
  c = '_' || c = '-'

/-- Match a literal at the front of a string, returning the remainder. -/
def dropLit : Str → Str → Option Str
  | [], s => some s
  | _ :: _, [] => none
  | a :: p, b :: s => if a = b then dropLit p s else none

/-- The optional-scheme group `(?:https?:\/\/)?` (greedy, `https` before `http`,
then the empty alternative).  Returns the consumed prefix and the remainder. -/
def schemeSplit (s : Str) : Str × Str :=
  match dropLit "https://".data s with
  | some r => ("https://".data, r)
  | none =>
    match dropLit "http://".data s with
    | some r => ("http://".data, r)
    | none => ([], s)

/-- The optional group `(?:www\.)?`. -/
def wwwSplit (s : Str) : Str × Str :=
  match dropLit "www.".data s with
  | some r => ("www.".data, r)
  | none => ([], s)

/-- The host alternation, tried in source order.  The three literals are
pairwise incompatible, so committed choice is faithful. -/
def altSplit (s : Str) : Option (Str × Str) :=
  match dropLit "youtube.com/watch?v=".data s with
  | some r => some ("youtube.com/watch?v=".data, r)
  | none =>
    match dropLit "youtube.com/shorts/".data s with
    | some r => some ("youtube.com/shorts/".data, r)
    | none =>
      match dropLit "youtu.be/".data s with
      | some r => some ("youtu.be/".data, r)
      | none => none

/-- Try to match the whole YouTube pattern at the start of `s`.  On success
returns `(matched span, video id, remainder)`. -/
def matchYouTubeAt (s : Str) : Option (Str × Str × Str) :=
  let p1 := schemeSplit s
  let p2 := wwwSplit p1.2
  match altSplit p2.2 with
  | none => none
  | some (alt, s3) =>
    let id := s3.take 11
    if id.length = 11 && id.all isIdChar then
      some (p1.1 ++ p2.1 ++ alt ++ id, id, s3.drop 11)
    else none

/-- One global scan of the pattern over `s` (the shared behaviour of
`String.match` with the `g` flag and `String.replace`): returns the list of
`(matched span, id)` pairs in scan order, together with the unmatched residue
in order.  The fuel argument only serves termination; `s.length` always
suffices. -/
def ytAux : Nat → Str → List (Str × Str) × Str
  | 0, s => ([], s)
  | _ + 1, [] => ([], [])
  | fuel + 1, c :: rest =>
    match matchYouTubeAt (c :: rest) with
    | some (span, id, after) =>
      let r := ytAux fuel after
      ((span, id) :: r.1, r.2)
    | none =>
      let r := ytAux fuel rest
      (r.1, c :: r.2)

/-- Global scan with enough fuel. -/
def ytScan (s : Str) : List (Str × Str) × Str := ytAux s.length s

/-- The non-global pattern used by `normalizeYouTubeUrl`: first occurrence of a
host alternative followed by an 11-character id; returns the id. -/
def findAltId : Str → Option Str
  | [] => none
  | c :: rest =>
    match altSplit (c :: rest) with
    | some (_, s3) =>
      if (s3.take 11).length = 11 && (s3.take 11).all isIdChar then
        some (s3.take 11)
      else findAltId rest
    | none => findAltId rest

/-- `WorkoutParser.normalizeYouTubeUrl`. -/
def normalizeYouTubeUrl (url : Str) : Str :=
  match findAltId url with
  | some id => "https://www.youtube.com/watch?v=".data ++ id
  | none => url

/-- `WorkoutParser.extractYouTubeLinks`: all matches, each prefixed with
`https://` when it does not start with `http`, then normalized. -/
def extractYouTubeLinks (text : Str) : List Str :=
  (ytScan text).1.map (fun m =>
    let fullUrl := if (dropLit "http".data m.1).isSome then m.1 else "https://".data ++ m.1
    normalizeYouTubeUrl fullUrl)

/-- `WorkoutParser.removeYouTubeLinks`: `text.replace(pattern, '').trim()`. -/
def removeYouTubeLinks (text : Str) : Str :=
  trim (ytScan text).2

/-! ## The section parser (`WorkoutParser.parseCellData`) -/

/-- The `type` field of `WorkoutSectionData` ('section' / 'upper_lower' / 'text').
`sect` stands for the source's string value 'section' (a Lean keyword). -/
inductive SectionType
  | sect
  | upper_lower
  | text
deriving DecidableEq, Repr

/-- One parsed section, as pushed by `parseCellData`. -/
structure WorkoutSectionData where
  type : SectionType
  header : Option Str
  content : List Str
  youtubeLinks : List Str
deriving DecidableEq, Repr

/-- One parsed session. -/
structure WorkoutSession where
  sessionNumber : Nat
  sections : List WorkoutSectionData
deriving DecidableEq, Repr

/-- `SECTION_HEADER_PATTERN = /^[A-Z]\d*\./` tested against `line.trim()`:
an ASCII uppercase letter, then digits, then a literal period, anchored at the
start (the digit run is committed because a digit is never the period). -/
def headerTail : Str → Bool
  | [] => false
  | c :: rest => if c = '.' then true else if c.isDigit then headerTail rest else false

/-- `WorkoutParser.isSectionHeader`. -/
def isSectionHeader (line : Str) : Bool :=
  match trim line with
  | [] => false
  | c :: rest => c.isUpper && headerTail rest

/-- ASCII-only lowering, the effect of the `i` flag on this pattern. -/
def asciiLower (c : Char) : Char :=
  if c.isUpper then Char.ofNat (c.toNat + 32) else c

/-- `UPPER_LOWER_PATTERN = /^(upper body|lower body):$/i` tested against
`line.trim()` (anchored on both sides). -/
def isUpperLowerBody (line : Str) : Bool :=
  ((trim line).map asciiLower = "upper body:".data) ||
  ((trim line).map asciiLower = "lower body:".data)

/-- The body of `parseCellData`'s loop over the cleaned lines, with the
`currentSection` cursor and the push-order of the `sections` array made
explicit. -/
def parseLines : Option WorkoutSectionData → List Str → List WorkoutSectionData
  | cur, [] =>
    match cur with
    | some s => [s]
    | none => []
  | cur, line :: rest =>
    if isSectionHeader line then
      cur.toList ++
        parseLines (some ⟨SectionType.sect, some (trim line), [], []⟩) rest
    else if isUpperLowerBody line then
      cur.toList ++
        parseLines (some ⟨SectionType.upper_lower, some (trim line), [], []⟩) rest
    else
      match cur with
      | some s =>
        let youtubeLinks := extractYouTubeLinks line
        let cleanedLine := trim (removeYouTubeLinks line)
        parseLines
          (some { s with
                  content := s.content ++ (if cleanedLine.isEmpty then [] else [cleanedLine]),
                  youtubeLinks := s.youtubeLinks ++ youtubeLinks }) rest
      | none =>
        let youtubeLinks := extractYouTubeLinks line
        let cleanedLine := trim (removeYouTubeLinks line)
        if !cleanedLine.isEmpty || !youtubeLinks.isEmpty then
          ⟨SectionType.text, none,
            (if cleanedLine.isEmpty then [] else [cleanedLine]), youtubeLinks⟩ ::
            parseLines none rest
        else
          parseLines none rest

/-- `WorkoutParser.parseCellData`. -/
def parseCellData (cellContent : Str) (sessionNumber : Nat) : WorkoutSession :=
  ⟨sessionNumber, parseLines none (cellLines cellContent)⟩

/-- A spreadsheet cell value: a string, a number, or empty. -/
inductive CellValue
  | str (s : Str)
  | num (n : Int)
  | empty
deriving DecidableEq, Repr

/-- `WorkoutParser.parseWorkoutData`: the nested `forEach` loops with their
pushes onto the `sessions` array, rendered as folds over the index-value
pairs. -/
def parseWorkoutData (cellData : List (List CellValue)) : List WorkoutSession :=
  cellData.enum.foldl (fun sessions rp =>
    rp.2.enum.foldl (fun acc cp =>
      match cp.2 with
      | CellValue.str s =>
        if !s.isEmpty then
          let session := parseCellData s (rp.1 * rp.2.length + cp.1 + 1)
          if !session.sections.isEmpty then acc ++ [session] else acc
        else acc
      | _ => acc) sessions) []

/-- Reference definition following the spec's words for the batch contract:
iterate the grid row-major, assign `sessionNumber = row_index * row_length +
col_index + 1`, and emit a Session exactly for the cells that are non-empty
strings whose parse produced at least one section. -/
def parseSessionsSpec (grid : List (List CellValue)) : List WorkoutSession :=
  (grid.enum.map (fun rp =>
    rp.2.enum.filterMap (fun cp =>
      match cp.2 with
      | CellValue.str s =>
        if s.isEmpty then none
        else
          let session := parseCellData s (rp.1 * rp.2.length + cp.1 + 1)
          if session.sections.isEmpty then none else some session
      | _ => none))).flatten

/-! ## The block renderer (`NotionClient.buildSingleSessionContent`) -/

/-- A Notion content block, keeping only the payload the builders set. -/
inductive Block
  | heading_2 (text : Str)
  | heading_3 (text : Str)
  | paragraph (text : Str)
  | bulleted_list_item (text : Str)
  | embed (url : Str)
deriving DecidableEq, Repr

/-- JS truthiness of the optional `header` field (`undefined` and `''` are
falsy). -/
def headerTruthy : Option Str → Bool
  | some h => !h.isEmpty
  | none => false

/-- Value of the optional `header` field when used. -/
def headerVal : Option Str → Str
  | some h => h
  | none => []

/-- Blocks pushed for one section's header and content by
`buildSingleSessionContent`'s if/else-if chain. -/
def sectionContentBlocks (sec : WorkoutSectionData) : List Block :=
  if sec.type = SectionType.sect && headerTruthy sec.header then
    Block.paragraph (headerVal sec.header) ::
      sec.content.map Block.bulleted_list_item
  else if sec.type = SectionType.upper_lower && headerTruthy sec.header then
    Block.heading_3 (headerVal sec.header) ::
      sec.content.map Block.bulleted_list_item
  else if sec.type = SectionType.text then
    sec.content.map Block.paragraph
  else []

/-- All blocks pushed for one section: content blocks, then one embed per
link. -/
def sectionBlocks (sec : WorkoutSectionData) : List Block :=
  sectionContentBlocks sec ++ sec.youtubeLinks.map Block.embed

/-- `NotionClient.buildSingleSessionContent`. -/
def buildSingleSessionContent (session : WorkoutSession) : List Block :=
  session.sections.flatMap sectionBlocks

/-! ## The chunked delivery protocol (`NotionClient.createWorkoutPage` /
`appendBlocksInChunks`) -/

/-- One remote call made by the page-delivery path. -/
inductive NotionCall (α : Type)
  | create (blocks : List α)
  | append (blocks : List α)
deriving DecidableEq, Repr

/-- The slicing loop of `appendBlocksInChunks`:
`for (let i = 0; i < blocks.length; i += chunkSize) { blocks.slice(i, i + chunkSize) }`
with `chunkSize = 100`. -/
def appendChunksAux (blocks : List α) (i : Nat) : List (List α) :=
  if _h : i < blocks.length then
    (blocks.drop i).take 100 :: appendChunksAux blocks (i + 100)
  else []
termination_by blocks.length - i
decreasing_by omega

/-- `NotionClient.appendBlocksInChunks`: the chunks appended, in call order. -/
def appendBlocksInChunks (blocks : List α) : List (List α) :=
  appendChunksAux blocks 0

/-- The remote calls issued by `createWorkoutPage` for a given block sequence:
one creation call with `blocks.slice(0, 100)`, then the append calls for
`blocks.slice(100)` when that remainder is non-empty. -/
def createWorkoutPageCalls (blocks : List α) : List (NotionCall α) :=
  let initialBlocks := blocks.take 100
  let remainingBlocks := blocks.drop 100
  NotionCall.create initialBlocks ::
    (if remainingBlocks.length > 0 then
      (appendBlocksInChunks remainingBlocks).map NotionCall.append
    else [])

/-! ## Markdown conversion (`PostWorkoutClient.convertBlocksToMarkdown`) -/

/-- The `type` tags the markdown switch distinguishes (`other` stands for any
kind without a case in the switch). -/
inductive BlockKind
  | heading_1
  | heading_2
  | heading_3
  | paragraph
  | bulleted_list_item
  | numbered_list_item
  | embed
  | other
deriving DecidableEq, Repr

/-- A fetched block as seen by `convertBlocksToMarkdown`: its kind, its first
rich-text content (`none` when the optional chain fails, `some []` when the
content string is empty — both falsy), and its recorded depth. -/
structure MdBlock where
  kind : BlockKind
  text : Option Str
  depth : Nat
deriving DecidableEq, Repr

/-- Truthiness of `block.<kind>.rich_text?.[0]?.text?.content`. -/
def mdTextTruthy (t : Option Str) : Bool :=
  match t with
  | some s => !s.isEmpty
  | none => false

/-- Value of the text content when used. -/
def mdTextVal (t : Option Str) : Str :=
  match t with
  | some s => s
  | none => []

/-- The lines pushed by one iteration of the markdown loop:
the `continue` for embeds, then `indent = '  '.repeat(depth)` and the switch. -/
def blockLines (b : MdBlock) : List Str :=
  if b.kind = BlockKind.embed then []
  else
    let indent := List.replicate (2 * b.depth) ' '
    match b.kind with
    | BlockKind.heading_1 =>
      if mdTextTruthy b.text then ["# ".data ++ mdTextVal b.text] else []
    | BlockKind.heading_2 =>
      if mdTextTruthy b.text then ["## ".data ++ mdTextVal b.text] else []
    | BlockKind.heading_3 =>
      if mdTextTruthy b.text then ["### ".data ++ mdTextVal b.text] else []
    | BlockKind.paragraph =>
      if mdTextTruthy b.text then [indent ++ mdTextVal b.text] else [[]]
    | BlockKind.bulleted_list_item =>
      if mdTextTruthy b.text then [indent ++ "- ".data ++ mdTextVal b.text] else []
    | BlockKind.numbered_list_item =>
      if mdTextTruthy b.text then [indent ++ "1. ".data ++ mdTextVal b.text] else []
    | _ => []

/-- `markdownLines.join('\n')`. -/
def joinWithNewline : List Str → Str
  | [] => []
  | [l] => l
  | l :: ls => l ++ '\n' :: joinWithNewline ls

/-- `PostWorkoutClient.convertBlocksToMarkdown`: the loop accumulating
`markdownLines`, then the join. -/
def convertBlocksToMarkdown (blocks : List MdBlock) : Str :=
  joinWithNewline (blocks.foldl (fun acc b => acc ++ blockLines b) [])

/-- Reference definition following the (amended) spec words for `toMarkdown`:
per block, known kinds map to their line prefixes (`# `, `## `, `### `, `- `,
`1. `, plain text); paragraph, bulleted and numbered lines are indented two
spaces per depth level while heading lines are not; embed and unmapped kinds
yield no line; a paragraph with no text content still yields an empty line;
other kinds with no text content yield no line. -/
def toMarkdownSpecLine (b : MdBlock) : List Str :=
  match b.kind, b.text with
  | BlockKind.heading_1, some t => if t.isEmpty then [] else ["# ".data ++ t]
  | BlockKind.heading_2, some t => if t.isEmpty then [] else ["## ".data ++ t]
  | BlockKind.heading_3, some t => if t.isEmpty then [] else ["### ".data ++ t]
  | BlockKind.paragraph, some t =>
    if t.isEmpty then [[]] else [List.replicate (2 * b.depth) ' ' ++ t]
  | BlockKind.paragraph, none => [[]]
  | BlockKind.bulleted_list_item, some t =>
    if t.isEmpty then [] else [List.replicate (2 * b.depth) ' ' ++ "- ".data ++ t]
  | BlockKind.numbered_list_item, some t =>
    if t.isEmpty then [] else [List.replicate (2 * b.depth) ' ' ++ "1. ".data ++ t]
  | _, _ => []

/-- The spec-side markdown conversion: the per-block lines in order, joined
with newlines. -/
def toMarkdownSpec (blocks : List MdBlock) : Str :=
  joinWithNewline (blocks.flatMap toMarkdownSpecLine)

/-! ## Lemmas about literal matching -/

theorem dropLit_eq_some {p s r : Str} (h : dropLit p s = some r) : s = p ++ r := by
  induction p generalizing s with
  | nil => simpa [dropLit] using h
  | cons a p ih =>
    cases s with
    | nil => simp [dropLit] at h
    | cons b s =>
      by_cases hab : a = b
      · subst hab
        simp only [dropLit, if_pos rfl] at h
        simpa using ih h
      · simp [dropLit, hab] at h

theorem dropLit_append_some {p t r : Str} (u : Str) (h : dropLit p t = some r) :
    dropLit p (t ++ u) = some (r ++ u) := by
  induction p generalizing t with
  | nil => simp [dropLit] at h ⊢; simp [h]
  | cons a p ih =>
    cases t with
    | nil => simp [dropLit] at h
    | cons b t =>
      by_cases hab : a = b
      · subst hab
        simp only [dropLit, if_pos rfl] at h
        simpa [dropLit] using ih h
      · simp [dropLit, hab] at h

theorem dropLit_append_none {p t : Str} (u : Str) (h : dropLit p t = none)
    (hlen : p.length ≤ t.length) : dropLit p (t ++ u) = none := by
  induction p generalizing t with
  | nil => simp [dropLit] at h
  | cons a p ih =>
    cases t with
    | nil => simp at hlen
    | cons b t =>
      by_cases hab : a = b
      · subst hab
        simp only [dropLit, if_pos rfl] at h ⊢
        exact ih h (by simpa using hlen)
      · simp [dropLit, hab]

theorem schemeSplit_eq (s : Str) : s = (schemeSplit s).1 ++ (schemeSplit s).2 := by
  unfold schemeSplit
  rcases h1 : dropLit "https://".data s with _ | r1
  · rcases h2 : dropLit "http://".data s with _ | r2
    · simp
    · simpa using dropLit_eq_some h2
  · simpa using dropLit_eq_some h1

theorem wwwSplit_eq (s : Str) : s = (wwwSplit s).1 ++ (wwwSplit s).2 := by
  unfold wwwSplit
  rcases h1 : dropLit "www.".data s with _ | r1
  · simp
  · simpa using dropLit_eq_some h1

theorem altSplit_eq {s a r : Str} (h : altSplit s = some (a, r)) :
    s = a ++ r ∧ 9 ≤ a.length := by
  unfold altSplit at h
  rcases h1 : dropLit "youtube.com/watch?v=".data s with _ | r1 <;> rw [h1] at h
  · rcases h2 : dropLit "youtube.com/shorts/".data s with _ | r2 <;> rw [h2] at h
    · rcases h3 : dropLit "youtu.be/".data s with _ | r3 <;> rw [h3] at h
      · simp at h
      · obtain ⟨ha, hr⟩ : "youtu.be/".data = a ∧ r3 = r := by simpa using h
        subst ha; subst hr
        exact ⟨dropLit_eq_some h3, by decide⟩
    · obtain ⟨ha, hr⟩ : "youtube.com/shorts/".data = a ∧ r2 = r := by simpa using h
      subst ha; subst hr
      exact ⟨dropLit_eq_some h2, by decide⟩
  · obtain ⟨ha, hr⟩ : "youtube.com/watch?v=".data = a ∧ r1 = r := by simpa using h
    subst ha; subst hr
    exact ⟨dropLit_eq_some h1, by decide⟩

/-- Structure of a successful match: the input splits as span ++ remainder and
the span is at least 20 characters long (host form plus 11-character id). -/
theorem matchYouTubeAt_some {s span id after : Str}
    (h : matchYouTubeAt s = some (span, id, after)) :
    s = span ++ after ∧ 20 ≤ span.length ∧ id.length = 11 := by
  simp only [matchYouTubeAt] at h
  rcases halt : altSplit (wwwSplit (schemeSplit s).2).2 with _ | ⟨alt, s3⟩ <;>
    simp only [halt] at h
  · exact absurd h (by simp)
  · by_cases hid : (decide ((s3.take 11).length = 11) && (s3.take 11).all isIdChar) = true
    · rw [if_pos hid] at h
      obtain ⟨hspan, hid', hafter⟩ :
          (schemeSplit s).1 ++ (wwwSplit (schemeSplit s).2).1 ++ alt ++ s3.take 11 = span ∧
          s3.take 11 = id ∧ s3.drop 11 = after := by simpa using h
      obtain ⟨hs3, halt9⟩ := altSplit_eq halt
      have hlen11 : (s3.take 11).length = 11 := by
        have hh := hid
        simp only [Bool.and_eq_true, decide_eq_true_eq] at hh
        exact hh.1
      refine ⟨?_, ?_, ?_⟩
      · rw [← hspan, ← hafter]
        calc s = (schemeSplit s).1 ++ (schemeSplit s).2 := schemeSplit_eq s
          _ = (schemeSplit s).1 ++ ((wwwSplit (schemeSplit s).2).1 ++ (wwwSplit (schemeSplit s).2).2) := by
              rw [← wwwSplit_eq]
          _ = (schemeSplit s).1 ++ ((wwwSplit (schemeSplit s).2).1 ++ (alt ++ (s3.take 11 ++ s3.drop 11))) := by
              rw [List.take_append_drop, ← hs3]
          _ = (schemeSplit s).1 ++ (wwwSplit (schemeSplit s).2).1 ++ alt ++ s3.take 11 ++ s3.drop 11 := by
              simp [List.append_assoc]
      · rw [← hspan]
        simp only [List.length_append]
        omega
      · rw [← hid']; exact hlen11
    · rw [if_neg hid] at h
      exact absurd h (by simp)

/-- A successful match consumes at least one character. -/
theorem matchYouTubeAt_shrink {s span id after : Str}
    (h : matchYouTubeAt s = some (span, id, after)) : after.length < s.length := by
  obtain ⟨hs, hspan, _⟩ := matchYouTubeAt_some h
  have : s.length = span.length + after.length := by rw [hs]; simp
  omega

theorem matchYouTubeAt_nil : matchYouTubeAt [] = none := rfl

/-! ## Lemmas about the global scan -/

theorem ytAux_congr : ∀ (f₁ f₂ : Nat) (s : Str), s.length ≤ f₁ → s.length ≤ f₂ →
    ytAux f₁ s = ytAux f₂ s := by
  intro f₁
  induction f₁ with
  | zero =>
    intro f₂ s h₁ _
    have : s = [] := by
      cases s with
      | nil => rfl
      | cons c r => simp at h₁
    subst this
    cases f₂ <;> rfl
  | succ f₁ ih =>
    intro f₂ s h₁ h₂
    cases s with
    | nil => cases f₂ <;> rfl
    | cons c rest =>
      cases f₂ with
      | zero => simp at h₂
      | succ f₂ =>
        have h₁' : rest.length + 1 ≤ f₁ + 1 := by simpa using h₁
        have h₂' : rest.length + 1 ≤ f₂ + 1 := by simpa using h₂
        rcases hm : matchYouTubeAt (c :: rest) with _ | ⟨span, id, after⟩
        · simp only [ytAux, hm]
          rw [ih f₂ rest (by omega) (by omega)]
        · have ha := matchYouTubeAt_shrink hm
          simp only [List.length_cons] at ha
          simp only [ytAux, hm]
          rw [ih f₂ after (by omega) (by omega)]

theorem ytScan_nil : ytScan [] = ([], []) := rfl

theorem ytScan_cons_some {c : Char} {rest span id after : Str}
    (h : matchYouTubeAt (c :: rest) = some (span, id, after)) :
    ytScan (c :: rest) = ((span, id) :: (ytScan after).1, (ytScan after).2) := by
  have ha := matchYouTubeAt_shrink h
  simp only [List.length_cons] at ha
  show ytAux (c :: rest).length (c :: rest) = _
  simp only [List.length_cons, ytAux, h]
  rw [ytAux_congr rest.length after.length after (by omega) le_rfl]
  rfl

theorem ytScan_cons_none {c : Char} {rest : Str}
    (h : matchYouTubeAt (c :: rest) = none) :
    ytScan (c :: rest) = ((ytScan rest).1, c :: (ytScan rest).2) := by
  show ytAux (c :: rest).length (c :: rest) = _
  simp only [List.length_cons, ytAux, h]
  rfl

/-- When the scan finds no match, the residue is the whole input. -/
theorem ytScan_no_match_residue : ∀ s : Str, (ytScan s).1 = [] → (ytScan s).2 = s := by
  have main : ∀ n, ∀ s : Str, s.length ≤ n → (ytScan s).1 = [] → (ytScan s).2 = s := by
    intro n
    induction n with
    | zero =>
      intro s hs
      cases s with
      | nil => intro _; rfl
      | cons c r => simp at hs
    | succ n ih =>
      intro s hs
      cases s with
      | nil => intro _; rfl
      | cons c rest =>
        rcases hm : matchYouTubeAt (c :: rest) with _ | ⟨span, id, after⟩
        · rw [ytScan_cons_none hm]
          intro h1
          have hr : rest.length ≤ n := by simp at hs; omega
          have := ih rest hr h1
          simp [this]
        · rw [ytScan_cons_some hm]
          intro h1
          simp at h1
  exact fun s => main s.length s le_rfl

/-- The scan finds no match exactly when no suffix of the input starts a
match. -/
theorem ytScan_fst_eq_nil_iff : ∀ s : Str,
    (ytScan s).1 = [] ↔ ∀ t : Str, t <:+ s → matchYouTubeAt t = none := by
  have main : ∀ n, ∀ s : Str, s.length ≤ n →
      ((ytScan s).1 = [] ↔ ∀ t : Str, t <:+ s → matchYouTubeAt t = none) := by
    intro n
    induction n with
    | zero =>
      intro s hs
      have hnil : s = [] := by
        cases s with
        | nil => rfl
        | cons c r => simp at hs
      subst hnil
      simp only [ytScan_nil]
      constructor
      · intro _ t ht
        rw [List.suffix_nil.1 ht]
        exact matchYouTubeAt_nil
      · intro _; trivial
    | succ n ih =>
      intro s hs
      cases s with
      | nil =>
        simp only [ytScan_nil]
        constructor
        · intro _ t ht
          rw [List.suffix_nil.1 ht]
          exact matchYouTubeAt_nil
        · intro _; trivial
      | cons c rest =>
        have hr : rest.length ≤ n := by simp at hs; omega
        have ihr := ih rest hr
        rcases hm : matchYouTubeAt (c :: rest) with _ | ⟨span, id, after⟩
        · rw [ytScan_cons_none hm]
          constructor
          · intro h1 t ht
            rcases List.suffix_cons_iff.1 ht with h | h
            · rw [h]; exact hm
            · exact (ihr.1 h1) t h
          · intro h
            exact ihr.2 (fun t ht => h t (List.suffix_cons_iff.2 (Or.inr ht)))
        · rw [ytScan_cons_some hm]
          constructor
          · intro h1; simp at h1
          · intro h
            have hc := h (c :: rest) List.suffix_rfl
            rw [hm] at hc
            exact absurd hc (by simp)
  exact fun s => main s.length s le_rfl

/-! ## Monotonicity of matching under right extension -/

theorem schemeSplit_append (u : Str) {t : Str} (hlen : 8 ≤ t.length) :
    schemeSplit (t ++ u) = ((schemeSplit t).1, (schemeSplit t).2 ++ u) := by
  unfold schemeSplit
  rcases h1 : dropLit "https://".data t with _ | r1
  · rw [dropLit_append_none u h1 (by simpa using hlen)]
    rcases h2 : dropLit "http://".data t with _ | r2
    · rw [dropLit_append_none u h2 (by simp; omega)]
    · rw [dropLit_append_some u h2]
  · rw [dropLit_append_some u h1]

theorem wwwSplit_append (u : Str) {t : Str} (hlen : 4 ≤ t.length) :
    wwwSplit (t ++ u) = ((wwwSplit t).1, (wwwSplit t).2 ++ u) := by
  unfold wwwSplit
  rcases h1 : dropLit "www.".data t with _ | r1
  · rw [dropLit_append_none u h1 (by simpa using hlen)]
  · rw [dropLit_append_some u h1]

theorem altSplit_append (u : Str) {t a r : Str} (h : altSplit t = some (a, r))
    (hlen : 20 ≤ t.length) : altSplit (t ++ u) = some (a, r ++ u) := by
  unfold altSplit at h ⊢
  rcases h1 : dropLit "youtube.com/watch?v=".data t with _ | r1 <;> rw [h1] at h
  · rw [dropLit_append_none u h1 (by simpa using hlen)]
    rcases h2 : dropLit "youtube.com/shorts/".data t with _ | r2 <;> rw [h2] at h
    · rw [dropLit_append_none u h2 (by simp; omega)]
      rcases h3 : dropLit "youtu.be/".data t with _ | r3 <;> rw [h3] at h
      · simp at h
      · obtain ⟨ha, hr⟩ : "youtu.be/".data = a ∧ r3 = r := by simpa using h
        rw [dropLit_append_some u h3, ha, hr]
    · obtain ⟨ha, hr⟩ : "youtube.com/shorts/".data = a ∧ r2 = r := by simpa using h
      rw [dropLit_append_some u h2, ha, hr]
  · obtain ⟨ha, hr⟩ : "youtube.com/watch?v=".data = a ∧ r1 = r := by simpa using h
    rw [dropLit_append_some u h1, ha, hr]

/-- A match at the head of `t` is still a match at the head of `t ++ u`. -/
theorem matchYouTubeAt_append (u : Str) {t span id after : Str}
    (h : matchYouTubeAt t = some (span, id, after)) :
    matchYouTubeAt (t ++ u) = some (span, id, after ++ u) := by
  simp only [matchYouTubeAt] at h
  rcases halt : altSplit (wwwSplit (schemeSplit t).2).2 with _ | ⟨alt, s3⟩ <;>
    simp only [halt] at h
  · exact absurd h (by simp)
  · by_cases hid : (decide ((s3.take 11).length = 11) && (s3.take 11).all isIdChar) = true
    · rw [if_pos hid] at h
      obtain ⟨hspan, hid', hafter⟩ :
          (schemeSplit t).1 ++ (wwwSplit (schemeSplit t).2).1 ++ alt ++ s3.take 11 = span ∧
          s3.take 11 = id ∧ s3.drop 11 = after := by simpa using h
      obtain ⟨hs3eq, halt9⟩ := altSplit_eq halt
      have hs3len : 11 ≤ s3.length := by
        have h11 := hid
        simp only [Bool.and_eq_true, decide_eq_true_eq] at h11
        have := h11.1
        simp [List.length_take] at this
        omega
      have hw2 : 20 ≤ (wwwSplit (schemeSplit t).2).2.length := by
        rw [hs3eq]
        simp only [List.length_append]
        omega
      have hs1 : 8 ≤ (schemeSplit t).2.length := by
        have hww := wwwSplit_eq (schemeSplit t).2
        have : (schemeSplit t).2.length =
            (wwwSplit (schemeSplit t).2).1.length + (wwwSplit (schemeSplit t).2).2.length := by
          conv_lhs => rw [hww]
          simp
        omega
      have ht : 8 ≤ t.length := by
        have hsc := schemeSplit_eq t
        have : t.length = (schemeSplit t).1.length + (schemeSplit t).2.length := by
          conv_lhs => rw [hsc]
          simp
        omega
      have hws : 4 ≤ (schemeSplit t).2.length := by omega
      simp only [matchYouTubeAt, schemeSplit_append u ht, wwwSplit_append u hws,
        altSplit_append u halt hw2,
        List.take_append_of_le_length hs3len, List.drop_append_of_le_length hs3len,
        if_pos hid]
      rw [← hspan, ← hid', ← hafter]
    · rw [if_neg hid] at h
      exact absurd h (by simp)

/-! ## Lemmas about trimming -/

theorem dropWhile_idem (p : Char → Bool) (l : Str) :
    (l.dropWhile p).dropWhile p = l.dropWhile p := by
  induction l with
  | nil => rfl
  | cons a t ih =>
    by_cases hpa : p a = true
    · simp [List.dropWhile_cons, hpa, ih]
    · simp [List.dropWhile_cons, hpa]

theorem dropWhile_eq_self_of_head {l : Str} (h : l ≠ []) (hp : isWs (l.head h) = false) :
    l.dropWhile isWs = l := by
  cases l with
  | nil => exact absurd rfl h
  | cons a t =>
    simp only [List.head_cons] at hp
    simp [List.dropWhile_cons, hp]

/-- Any string is its trimmed core surrounded by whitespace ends. -/
theorem trim_infix (s : Str) : ∃ w₁ w₂ : Str, s = w₁ ++ (trim s ++ w₂) := by
  refine ⟨s.takeWhile isWs, ((s.dropWhile isWs).reverse.takeWhile isWs).reverse, ?_⟩
  conv_lhs => rw [← List.takeWhile_append_dropWhile isWs s]
  congr 1
  conv_lhs =>
    rw [← List.reverse_reverse (s.dropWhile isWs),
      ← List.takeWhile_append_dropWhile isWs (s.dropWhile isWs).reverse,
      List.reverse_append]
  rfl

theorem trim_nil : trim [] = [] := rfl

/-- The left end of a trimmed string carries no whitespace. -/
theorem trim_dropWhile (s : Str) : (trim s).dropWhile isWs = trim s := by
  rcases hX : (s.dropWhile isWs).reverse.dropWhile isWs with _ | ⟨a, t⟩
  · unfold trim
    rw [hX]
    rfl
  · have htrim : trim s = (a :: t).reverse := by unfold trim; rw [hX]
    have hne : trim s ≠ [] := by rw [htrim]; simp
    have hsuff : (a :: t) <:+ (s.dropWhile isWs).reverse := by
      rw [← hX]; exact List.dropWhile_suffix isWs
    obtain ⟨w, hw⟩ := hsuff
    have hT1 : s.dropWhile isWs = trim s ++ w.reverse := by
      rw [htrim]
      have hrev := congrArg List.reverse hw
      simpa [List.reverse_append] using hrev.symm
    have hTne : s.dropWhile isWs ≠ [] := by
      rw [hT1]
      intro hc
      exact hne (List.append_eq_nil.mp hc).1
    have hhead := List.head_dropWhile_not isWs s hTne
    have hheq : (s.dropWhile isWs).head hTne = (trim s).head hne := by
      have hc := @List.head_append_of_ne_nil Char w.reverse (trim s)
        (hT1 ▸ hTne) hne
      calc (s.dropWhile isWs).head hTne
          = (trim s ++ w.reverse).head (hT1 ▸ hTne) := by congr 1
        _ = (trim s).head hne := hc
    rw [hheq] at hhead
    exact dropWhile_eq_self_of_head hne hhead

/-- The right end of a trimmed string carries no whitespace. -/
theorem trim_reverse_dropWhile (s : Str) :
    (trim s).reverse.dropWhile isWs = (trim s).reverse := by
  unfold trim
  rw [List.reverse_reverse]
  exact dropWhile_idem isWs _

/-- Trimming is idempotent. -/
theorem trim_trim (s : Str) : trim (trim s) = trim s := by
  show ((((trim s).dropWhile isWs).reverse).dropWhile isWs).reverse = trim s
  rw [trim_dropWhile, trim_reverse_dropWhile, List.reverse_reverse]

/-! ## Lemmas about link extraction and stripping -/

theorem extractYouTubeLinks_eq_nil_iff {s : Str} :
    extractYouTubeLinks s = [] ↔ (ytScan s).1 = [] := by
  unfold extractYouTubeLinks
  simp [List.map_eq_nil_iff]

/-- If a string has no match anywhere, neither does its trimmed form (a match
inside the core would extend to a match inside the full string). -/
theorem ytScan_fst_nil_trim {s : Str} (h : (ytScan s).1 = []) :
    (ytScan (trim s)).1 = [] := by
  obtain ⟨w₁, w₂, hs⟩ := trim_infix s
  have hall := (ytScan_fst_eq_nil_iff s).1 h
  apply (ytScan_fst_eq_nil_iff (trim s)).2
  intro t ht
  rcases hmt : matchYouTubeAt t with _ | ⟨span, id, after⟩
  · rfl
  · exfalso
    have hm2 := matchYouTubeAt_append w₂ hmt
    have hsuffix : t ++ w₂ <:+ s := by
      obtain ⟨v, hv⟩ := ht
      exact ⟨w₁ ++ v, by rw [hs, ← hv]; simp⟩
    have hnone := hall (t ++ w₂) hsuffix
    rw [hnone] at hm2
    exact absurd hm2 (by simp)

/-! ## Lemmas about the section parser -/

theorem isSectionHeader_trim_ne_nil {line : Str} (h : isSectionHeader line = true) :
    trim line ≠ [] := by
  intro hnil
  simp only [isSectionHeader, hnil] at h
  exact absurd h (by simp)

theorem isUpperLowerBody_trim_ne_nil {line : Str} (h : isUpperLowerBody line = true) :
    trim line ≠ [] := by
  intro hnil
  simp only [isUpperLowerBody, hnil] at h
  exact absurd h (by decide)

/-- One parser step: what a single line does depends only on the line and the
cursor — it prepends some sections and continues with a new cursor. -/
theorem parseLines_cons (cur : Option WorkoutSectionData) (line : Str) (rest : List Str) :
    ∃ X cur', parseLines cur (line :: rest) = X ++ parseLines cur' rest ∧
      (∀ rest', parseLines cur (line :: rest') = X ++ parseLines cur' rest') := by
  by_cases h1 : isSectionHeader line = true
  · exact ⟨cur.toList, some ⟨SectionType.sect, some (trim line), [], []⟩,
      by simp [parseLines, h1], fun rest' => by simp [parseLines, h1]⟩
  · by_cases h2 : isUpperLowerBody line = true
    · exact ⟨cur.toList, some ⟨SectionType.upper_lower, some (trim line), [], []⟩,
        by simp [parseLines, h1, h2], fun rest' => by simp [parseLines, h1, h2]⟩
    · cases cur with
      | some s =>
        refine ⟨[], some { s with
            content := s.content ++
              (if (trim (removeYouTubeLinks line)).isEmpty then []
               else [trim (removeYouTubeLinks line)]),
            youtubeLinks := s.youtubeLinks ++ extractYouTubeLinks line }, ?_, ?_⟩
        · simp [parseLines, h1, h2]
        · intro rest'; simp [parseLines, h1, h2]
      | none =>
        by_cases h3 : (!(trim (removeYouTubeLinks line)).isEmpty ||
            !(extractYouTubeLinks line).isEmpty) = true
        · refine ⟨[⟨SectionType.text, none,
              (if (trim (removeYouTubeLinks line)).isEmpty then []
               else [trim (removeYouTubeLinks line)]),
              extractYouTubeLinks line⟩], none, ?_, ?_⟩
          · simp only [parseLines, h1, h2, if_false, Bool.false_eq_true, if_pos h3]
            simp
          · intro rest'
            simp only [parseLines, h1, h2, if_false, Bool.false_eq_true, if_pos h3]
            simp
        · refine ⟨[], none, ?_, ?_⟩
          · simp only [parseLines, h1, h2, if_false, Bool.false_eq_true, if_neg h3]
            simp
          · intro rest'
            simp only [parseLines, h1, h2, if_false, Bool.false_eq_true, if_neg h3]
            simp

/-- Parser invariant: every emitted section is either a `text` section without
header and with at most one content line, or a header section whose header is
a non-empty string; the cursor (when set) always holds a header section. -/
theorem parseLines_inv (lines : List Str) :
    ∀ cur, (∀ s, cur = some s →
      s.type ≠ SectionType.text ∧ ∃ h, s.header = some h ∧ h ≠ []) →
    ∀ sec ∈ parseLines cur lines,
      (sec.type = SectionType.text → sec.header = none ∧ sec.content.length ≤ 1) ∧
      (sec.type ≠ SectionType.text → ∃ h, sec.header = some h ∧ h ≠ []) := by
  induction lines with
  | nil =>
    intro cur hcur sec hsec
    cases cur with
    | none => simp [parseLines] at hsec
    | some s =>
      simp only [parseLines] at hsec
      rw [List.mem_singleton] at hsec
      subst hsec
      obtain ⟨ht, h, hh, hne⟩ := hcur sec rfl
      exact ⟨fun hx => absurd hx ht, fun _ => ⟨h, hh, hne⟩⟩
  | cons line rest ih =>
    intro cur hcur sec hsec
    by_cases h1 : isSectionHeader line = true
    · rw [show parseLines cur (line :: rest) =
          cur.toList ++ parseLines (some ⟨SectionType.sect, some (trim line), [], []⟩) rest
          from by simp [parseLines, h1]] at hsec
      rcases List.mem_append.1 hsec with hm | hm
      · cases cur with
        | none => simp at hm
        | some s =>
          rw [Option.toList_some, List.mem_singleton] at hm
          subst hm
          obtain ⟨ht, h, hh, hne⟩ := hcur sec rfl
          exact ⟨fun hx => absurd hx ht, fun _ => ⟨h, hh, hne⟩⟩
      · exact ih _ (fun s hs => by
          cases hs
          exact ⟨by simp, trim line, rfl, isSectionHeader_trim_ne_nil h1⟩) sec hm
    · by_cases h2 : isUpperLowerBody line = true
      · rw [show parseLines cur (line :: rest) =
            cur.toList ++
              parseLines (some ⟨SectionType.upper_lower, some (trim line), [], []⟩) rest
            from by simp [parseLines, h1, h2]] at hsec
        rcases List.mem_append.1 hsec with hm | hm
        · cases cur with
          | none => simp at hm
          | some s =>
            rw [Option.toList_some, List.mem_singleton] at hm
            subst hm
            obtain ⟨ht, h, hh, hne⟩ := hcur sec rfl
            exact ⟨fun hx => absurd hx ht, fun _ => ⟨h, hh, hne⟩⟩
        · exact ih _ (fun s hs => by
            cases hs
            exact ⟨by simp, trim line, rfl, isUpperLowerBody_trim_ne_nil h2⟩) sec hm
      · cases cur with
        | some s =>
          rw [show parseLines (some s) (line :: rest) =
              parseLines (some { s with
                content := s.content ++
                  (if (trim (removeYouTubeLinks line)).isEmpty then []
                   else [trim (removeYouTubeLinks line)]),
                youtubeLinks := s.youtubeLinks ++ extractYouTubeLinks line }) rest
              from by simp [parseLines, h1, h2]] at hsec
          refine ih _ (fun s' hs' => ?_) sec hsec
          cases hs'
          obtain ⟨ht, h, hh, hne⟩ := hcur s rfl
          exact ⟨by simpa using ht, h, by simpa using hh, hne⟩
        | none =>
          by_cases h3 : (!(trim (removeYouTubeLinks line)).isEmpty ||
              !(extractYouTubeLinks line).isEmpty) = true
          · rw [show parseLines none (line :: rest) =
                ⟨SectionType.text, none,
                  (if (trim (removeYouTubeLinks line)).isEmpty then []
                   else [trim (removeYouTubeLinks line)]),
                  extractYouTubeLinks line⟩ :: parseLines none rest
                from by
                  simp only [parseLines, h1, h2, if_false, Bool.false_eq_true, if_pos h3]] at hsec
            rcases List.mem_cons.1 hsec with hm | hm
            · subst hm
              refine ⟨fun _ => ⟨rfl, ?_⟩, fun hne => absurd rfl hne⟩
              split <;> simp
            · exact ih none (by simp) sec hm
          · rw [show parseLines none (line :: rest) = parseLines none rest
                from by
                  simp only [parseLines, h1, h2, if_false, Bool.false_eq_true, if_neg h3]] at hsec
            exact ih none (by simp) sec hsec

/-- In the absence of header lines the parser emits exactly one freeform
section per (already trimmed, non-blank) line. -/
theorem parseLines_no_header (lines : List Str)
    (hno : ∀ l ∈ lines, isSectionHeader l = false ∧ isUpperLowerBody l = false)
    (hl : ∀ l ∈ lines, l ≠ [] ∧ trim l = l) :
    parseLines none lines = lines.map (fun l =>
      ⟨SectionType.text, none,
        (if (trim (removeYouTubeLinks l)).isEmpty then [] else [trim (removeYouTubeLinks l)]),
        extractYouTubeLinks l⟩) := by
  induction lines with
  | nil => rfl
  | cons line rest ih =>
    obtain ⟨hh1, hh2⟩ := hno line (by simp)
    obtain ⟨hne, htr⟩ := hl line (by simp)
    have hemit : (!(trim (removeYouTubeLinks line)).isEmpty ||
        !(extractYouTubeLinks line).isEmpty) = true := by
      rcases hlk : extractYouTubeLinks line with _ | _
      · have h1 : (ytScan line).1 = [] := extractYouTubeLinks_eq_nil_iff.1 hlk
        have h2 : (ytScan line).2 = line := ytScan_no_match_residue line h1
        have : trim (removeYouTubeLinks line) = line := by
          unfold removeYouTubeLinks
          rw [h2, trim_trim, htr]
        rw [this]
        simp [List.isEmpty_iff, hne]
      · simp
    rw [show parseLines none (line :: rest) =
        ⟨SectionType.text, none,
          (if (trim (removeYouTubeLinks line)).isEmpty then []
           else [trim (removeYouTubeLinks line)]),
          extractYouTubeLinks line⟩ :: parseLines none rest
        from by
          simp only [parseLines, hh1, hh2, if_false, Bool.false_eq_true, if_pos hemit]]
    rw [ih (fun l hlm => hno l (by simp [hlm])) (fun l hlm => hl l (by simp [hlm]))]
    simp

theorem cellLines_mem {t l : Str} (h : l ∈ cellLines t) : l ≠ [] ∧ trim l = l := by
  unfold cellLines at h
  obtain ⟨hmem, hfil⟩ := List.mem_filter.1 h
  obtain ⟨x, _, hx⟩ := List.mem_map.1 hmem
  constructor
  · simpa [List.isEmpty_iff] using hfil
  · rw [← hx]
    exact trim_trim x

/-! ## Lemmas about line splitting -/

theorem splitLines_ne_nil (s : Str) : splitLines s ≠ [] := by
  cases s with
  | nil => simp [splitLines]
  | cons c t =>
    rcases hr : splitLines t with _ | ⟨l, ls⟩ <;> by_cases hc : c = '\n' <;>
      simp [splitLines, hr, hc]

theorem splitLines_append (xs ys : Str) :
    splitLines (xs ++ '\n' :: ys) = splitLines xs ++ splitLines ys := by
  induction xs with
  | nil => simp [splitLines]
  | cons c t ih =>
    by_cases hc : c = '\n'
    · simp [splitLines, ih, hc]
    · rcases hr : splitLines t with _ | ⟨l, ls⟩
      · exact absurd hr (splitLines_ne_nil t)
      · simp [splitLines, ih, hc, hr]

theorem splitLines_no_newline {l : Str} (h : '\n' ∉ l) : splitLines l = [l] := by
  induction l with
  | nil => rfl
  | cons c t ih =>
    have hc : ¬c = '\n' := fun hc => h (by simp [hc])
    have ht : '\n' ∉ t := fun hm => h (by simp [hm])
    simp [splitLines, hc, ih ht]

theorem cellLines_append_line {t l : Str} (hnl : '\n' ∉ l) :
    cellLines (t ++ '\n' :: l) =
      cellLines t ++ (if (trim l).isEmpty then [] else [trim l]) := by
  unfold cellLines
  rw [splitLines_append, splitLines_no_newline hnl, List.map_append, List.filter_append]
  by_cases h : (trim l).isEmpty <;> simp [h]

/-- The trailing header section emitted for a final header line. -/
theorem parseLines_concat_header :
    ∀ (lines : List Str) (cur : Option WorkoutSectionData) (h : Str),
      isSectionHeader h = true →
      ∃ ss, parseLines cur (lines ++ [h]) =
        ss ++ [⟨SectionType.sect, some (trim h), [], []⟩] := by
  intro lines
  induction lines with
  | nil =>
    intro cur h hh
    exact ⟨cur.toList, by simp [parseLines, hh]⟩
  | cons line rest ih =>
    intro cur h hh
    obtain ⟨X, cur', _, hstep⟩ := parseLines_cons cur line (rest ++ [h])
    obtain ⟨ss, hss⟩ := ih cur' h hh
    refine ⟨X ++ ss, ?_⟩
    rw [List.cons_append, hstep (rest ++ [h]), hss, List.append_assoc]

/-! ## Lemmas about the chunked delivery -/

theorem appendChunksAux_stop {α : Type} (blocks : List α) (i : Nat)
    (h : blocks.length ≤ i) : appendChunksAux blocks i = [] := by
  unfold appendChunksAux
  rw [dif_neg (by omega)]

theorem appendChunksAux_step {α : Type} (blocks : List α) (i : Nat)
    (h : i < blocks.length) :
    appendChunksAux blocks i = (blocks.drop i).take 100 :: appendChunksAux blocks (i + 100) := by
  conv_lhs => unfold appendChunksAux
  rw [dif_pos h]

theorem appendChunksAux_flatten {α : Type} (blocks : List α) :
    ∀ n i, blocks.length - i ≤ n →
      (appendChunksAux blocks i).flatten = blocks.drop i := by
  intro n
  induction n with
  | zero =>
    intro i h
    rw [appendChunksAux_stop blocks i (by omega), List.drop_eq_nil_of_le (by omega)]
    rfl
  | succ n ih =>
    intro i h
    by_cases hi : i < blocks.length
    · rw [appendChunksAux_step blocks i hi, List.flatten_cons, ih (i + 100) (by omega)]
      conv_rhs => rw [← List.take_append_drop 100 (blocks.drop i)]
      rw [List.drop_drop]
    · rw [appendChunksAux_stop blocks i (by omega), List.drop_eq_nil_of_le (by omega)]
      rfl

theorem appendChunksAux_mem {α : Type} (blocks : List α) :
    ∀ n i, blocks.length - i ≤ n →
      ∀ c ∈ appendChunksAux blocks i, c.length ≤ 100 ∧ c ≠ [] := by
  intro n
  induction n with
  | zero =>
    intro i h c hc
    rw [appendChunksAux_stop blocks i (by omega)] at hc
    simp at hc
  | succ n ih =>
    intro i h c hc
    by_cases hi : i < blocks.length
    · rw [appendChunksAux_step blocks i hi] at hc
      rcases List.mem_cons.1 hc with hm | hm
      · subst hm
        constructor
        · simp [List.length_take]
        · have : ((blocks.drop i).take 100).length = min 100 (blocks.length - i) := by
            simp [List.length_take, List.length_drop]
          intro hnil
          rw [hnil] at this
          simp at this
          omega
      · exact ih (i + 100) (by omega) c hm
    · rw [appendChunksAux_stop blocks i (by omega)] at hc
      simp at hc

/-! ## Fold and filterMap bridging lemmas -/

theorem foldl_append_eq {α β : Type} (f : α → List β) :
    ∀ (l : List α) (init : List β),
      l.foldl (fun acc x => acc ++ f x) init = init ++ l.flatMap f := by
  intro l
  induction l with
  | nil => intro init; simp
  | cons a t ih =>
    intro init
    rw [List.foldl_cons, ih, List.flatMap_cons, List.append_assoc]

theorem filterMap_eq_flatMap_toList {α β : Type} (f : α → Option β) (l : List α) :
    l.filterMap f = l.flatMap (fun a => (f a).toList) := by
  induction l with
  | nil => rfl
  | cons a t ih =>
    rw [List.filterMap_cons, List.flatMap_cons, ← ih]
    cases f a <;> simp

/-! ## Lemmas about the markdown conversion -/

theorem blockLines_eq_spec (b : MdBlock) : blockLines b = toMarkdownSpecLine b := by
  rcases b with ⟨kind, text, depth⟩
  rcases text with _ | t
  · cases kind <;> rfl
  · by_cases ht : t.isEmpty = true <;>
      cases kind <;>
      simp [blockLines, toMarkdownSpecLine, mdTextTruthy, mdTextVal, ht]

/-! ## Claim theorems -/

/-- C1: the round-trip scenario.  The input
`"A. Warm-up\n5 min cardio\nhttps://youtu.be/abc12345678"` parses to exactly
one labeled section with header `"A. Warm-up"`, content `["5 min cardio"]` and
links `["https://www.youtube.com/watch?v=abc12345678"]`, and rendering that
single session yields exactly
`[paragraph("A. Warm-up"), bullet("5 min cardio"), embed(canonical url)]`
in that order. -/
theorem C1_roundtrip_single_section :
    (parseCellData "A. Warm-up\n5 min cardio\nhttps://youtu.be/abc12345678".data 1).sections =
      [⟨SectionType.sect, some "A. Warm-up".data, ["5 min cardio".data],
        ["https://www.youtube.com/watch?v=abc12345678".data]⟩] ∧
    buildSingleSessionContent
        (parseCellData "A. Warm-up\n5 min cardio\nhttps://youtu.be/abc12345678".data 1) =
      [Block.paragraph "A. Warm-up".data,
       Block.bulleted_list_item "5 min cardio".data,
       Block.embed "https://www.youtube.com/watch?v=abc12345678".data] := by
  decide

/-- C2: page delivery makes exactly one creation call carrying the first
`min(100, length)` blocks, followed by append calls of at most 100 blocks each
that cover the remaining blocks in consecutive groups in original order; for
length 250 the appends carry 100 then 50 blocks, and for length ≤ 100 there
are no appends. -/
theorem C2_chunked_delivery {α : Type} (blocks : List α) :
    createWorkoutPageCalls blocks =
      NotionCall.create (blocks.take 100) ::
        (appendBlocksInChunks (blocks.drop 100)).map NotionCall.append ∧
    (blocks.take 100).length = min 100 blocks.length ∧
    (appendBlocksInChunks (blocks.drop 100)).flatten = blocks.drop 100 ∧
    (∀ c ∈ appendBlocksInChunks (blocks.drop 100), c.length ≤ 100) ∧
    (blocks.length ≤ 100 → appendBlocksInChunks (blocks.drop 100) = []) ∧
    (blocks.length = 250 →
      (blocks.take 100).length = 100 ∧
      (appendBlocksInChunks (blocks.drop 100)).map List.length = [100, 50]) := by
  refine ⟨?_, ?_, ?_, ?_, ?_, ?_⟩
  · simp only [createWorkoutPageCalls]
    by_cases h : (blocks.drop 100).length > 0
    · rw [if_pos h]
    · rw [if_neg h]
      have hnil : blocks.drop 100 = [] := by
        cases hd : blocks.drop 100 with
        | nil => rfl
        | cons a t => rw [hd] at h; simp at h
      rw [hnil, show appendBlocksInChunks ([] : List α) = [] from
        appendChunksAux_stop [] 0 (by simp)]
      rfl
  · simp [List.length_take]
  · exact appendChunksAux_flatten (blocks.drop 100) (blocks.drop 100).length 0 (by omega)
  · intro c hc
    exact (appendChunksAux_mem (blocks.drop 100) (blocks.drop 100).length 0 (by omega) c hc).1
  · intro hle
    exact appendChunksAux_stop (blocks.drop 100) 0 (by simp [List.length_drop]; omega)
  · intro h250
    have hlen : (blocks.drop 100).length = 150 := by simp [List.length_drop, h250]
    constructor
    · simp [List.length_take, h250]
    · unfold appendBlocksInChunks
      rw [appendChunksAux_step _ 0 (by omega),
        appendChunksAux_step _ 100 (by omega),
        appendChunksAux_stop _ 200 (by omega)]
      simp only [List.map_cons, List.map_nil, List.length_take, List.length_drop,
        List.drop_zero, hlen]
      norm_num

/-- Witness for C2: the length-250 and length-≤100 instances at concrete
block sequences. -/
theorem C2_chunked_delivery_witness :
    ((appendBlocksInChunks ((List.range 250).drop 100)).map List.length = [100, 50] ∧
      appendBlocksInChunks ((List.range 50).drop 100) = []) :=
  ⟨((C2_chunked_delivery (List.range 250)).2.2.2.2.2 (by simp)).2,
    (C2_chunked_delivery (List.range 50)).2.2.2.2.1 (by simp)⟩

/-- C3 counterexample: `"foo\nbar"` contains no header-like line and has
non-blank content, yet `parse` returns two freeform sections, not exactly
one. -/
theorem C3_counterexample :
    (∀ l ∈ cellLines "foo\nbar".data,
      isSectionHeader l = false ∧ isUpperLowerBody l = false) ∧
    (parseCellData "foo\nbar".data 1).sections.length = 2 := by
  decide

/-- C3 (amended): when no line matches either header pattern, `parse` returns
exactly one freeform section per non-blank line — so k sections for k
non-blank lines, and zero sections exactly when the text is blank. -/
theorem C3_no_header_parse (t : Str) (n : Nat)
    (hno : ∀ l ∈ cellLines t, isSectionHeader l = false ∧ isUpperLowerBody l = false) :
    (parseCellData t n).sections.length = (cellLines t).length ∧
    ∀ sec ∈ (parseCellData t n).sections, sec.type = SectionType.text := by
  have heq := parseLines_no_header (cellLines t) hno (fun l hl => cellLines_mem hl)
  constructor
  · show (parseLines none (cellLines t)).length = _
    rw [heq]
    simp
  · intro sec hsec
    have hmem : sec ∈ (cellLines t).map (fun l =>
        (⟨SectionType.text, none,
          (if (trim (removeYouTubeLinks l)).isEmpty then []
           else [trim (removeYouTubeLinks l)]),
          extractYouTubeLinks l⟩ : WorkoutSectionData)) := heq ▸ hsec
    obtain ⟨l, _, hl⟩ := List.mem_map.1 hmem
    rw [← hl]

/-- Witness for C3 (amended) at the input `"one\ntwo"`. -/
theorem C3_no_header_parse_witness :
    (parseCellData "one\ntwo".data 1).sections.length =
      (cellLines "one\ntwo".data).length ∧
    ∀ sec ∈ (parseCellData "one\ntwo".data 1).sections,
      sec.type = SectionType.text :=
  C3_no_header_parse "one\ntwo".data 1 (by decide)

/-- C4 counterexample: stripping all matched spans can join fragments into a
new extractable link, so `extractLinks ∘ stripLinks` is not always empty.  In
`"youtu.be/youtu.be/ABCDEFGHIJKABCDEFGHIJK"` the only match is the middle
`youtu.be/ABCDEFGHIJK`; removing it glues `youtu.be/` onto the trailing
11-character run. -/
theorem C4_counterexample :
    extractYouTubeLinks
        (removeYouTubeLinks "youtu.be/youtu.be/ABCDEFGHIJKABCDEFGHIJK".data) =
      ["https://www.youtube.com/watch?v=ABCDEFGHIJK".data] ∧
    extractYouTubeLinks
        (removeYouTubeLinks "youtu.be/youtu.be/ABCDEFGHIJKABCDEFGHIJK".data) ≠ [] := by
  decide

/-- C4 (amended): for every line from which no link is extracted, stripping
only trims the line and extracting links afterwards still yields nothing.
(For lines that do contain links, stripping may juxtapose the surrounding
fragments into a new match — see the counterexample.) -/
theorem C4_strip_then_extract (line : Str) (h : extractYouTubeLinks line = []) :
    extractYouTubeLinks (removeYouTubeLinks line) = [] := by
  have h1 : (ytScan line).1 = [] := extractYouTubeLinks_eq_nil_iff.1 h
  have h2 : (ytScan line).2 = line := ytScan_no_match_residue line h1
  unfold removeYouTubeLinks
  rw [h2]
  exact extractYouTubeLinks_eq_nil_iff.2 (ytScan_fst_nil_trim h1)

/-- Witness for C4 (amended) at the link-free line `"  squats x10  "`. -/
theorem C4_strip_then_extract_witness :
    extractYouTubeLinks (removeYouTubeLinks "  squats x10  ".data) = [] :=
  C4_strip_then_extract "  squats x10  ".data (by decide)

/-- C5: the three URL shapes for the same video id each extract to exactly one
link, and all three canonicalize to the identical `watch?v=` template URL. -/
theorem C5_canonicalization_invariant :
    extractYouTubeLinks "https://youtu.be/dQw4w9WgXcQ".data =
      ["https://www.youtube.com/watch?v=dQw4w9WgXcQ".data] ∧
    extractYouTubeLinks "https://www.youtube.com/watch?v=dQw4w9WgXcQ".data =
      ["https://www.youtube.com/watch?v=dQw4w9WgXcQ".data] ∧
    extractYouTubeLinks "youtube.com/shorts/dQw4w9WgXcQ".data =
      ["https://www.youtube.com/watch?v=dQw4w9WgXcQ".data] := by
  decide

/-- C6: the batch parse iterates the grid row-major, numbers the cell at row
`r` and column `c` as `r * (length of row r) + c + 1`, and emits a Session
exactly for the cells that are non-empty strings whose parse produced at
least one section — the code-side fold equals the spec-side comprehension. -/
theorem C6_batch_parse_eq_spec (grid : List (List CellValue)) :
    parseWorkoutData grid = parseSessionsSpec grid := by
  unfold parseWorkoutData parseSessionsSpec
  have hrow : ∀ (rp : Nat × List CellValue) (l : List (Nat × CellValue))
      (acc : List WorkoutSession),
      l.foldl (fun acc2 cp =>
        match cp.2 with
        | CellValue.str s =>
          if !s.isEmpty then
            let session := parseCellData s (rp.1 * rp.2.length + cp.1 + 1)
            if !session.sections.isEmpty then acc2 ++ [session] else acc2
          else acc2
        | _ => acc2) acc
      = acc ++ l.filterMap (fun cp =>
          match cp.2 with
          | CellValue.str s =>
            if s.isEmpty then none
            else
              let session := parseCellData s (rp.1 * rp.2.length + cp.1 + 1)
              if session.sections.isEmpty then none else some session
          | _ => none) := by
    intro rp l
    induction l with
    | nil => intro acc; simp
    | cons cp tl ih =>
      intro acc
      rw [List.foldl_cons, List.filterMap_cons]
      rcases cp with ⟨ci, cell⟩
      cases cell with
      | str s =>
        by_cases hs : s.isEmpty = true
        · simp only [hs]
          rw [ih]
          simp
        · simp only [hs]
          by_cases hsec :
              (parseCellData s (rp.1 * rp.2.length + ci + 1)).sections.isEmpty = true
          · simp only [hsec]
            rw [ih]
            simp
          · simp only [hsec]
            rw [ih]
            simp
      | num m =>
        rw [ih]
      | empty =>
        rw [ih]
  have houter : ∀ (rows : List (Nat × List CellValue)) (init : List WorkoutSession),
      rows.foldl (fun sessions rp =>
        rp.2.enum.foldl (fun acc2 cp =>
          match cp.2 with
          | CellValue.str s =>
            if !s.isEmpty then
              let session := parseCellData s (rp.1 * rp.2.length + cp.1 + 1)
              if !session.sections.isEmpty then acc2 ++ [session] else acc2
            else acc2
          | _ => acc2) sessions) init
      = init ++ (rows.map (fun rp =>
          rp.2.enum.filterMap (fun cp =>
            match cp.2 with
            | CellValue.str s =>
              if s.isEmpty then none
              else
                let session := parseCellData s (rp.1 * rp.2.length + cp.1 + 1)
                if session.sections.isEmpty then none else some session
            | _ => none))).flatten := by
    intro rows
    induction rows with
    | nil => intro init; simp
    | cons rp tl ih =>
      intro init
      rw [List.foldl_cons, hrow rp, ih, List.map_cons, List.flatten_cons,
        List.append_assoc]
  rw [houter]
  simp

/-- C7 counterexample: a `heading_1` block at depth 1 with text `"x"` renders
as `"# x"` — heading lines are not indented by two spaces per depth level, so
the claim's uniform indentation rule fails on heading blocks. -/
theorem C7_counterexample :
    convertBlocksToMarkdown [⟨BlockKind.heading_1, some "x".data, 1⟩] = "# x".data ∧
    "# x".data ≠ "  # x".data := by
  decide

/-- C7 (amended): known block kinds map to their line prefixes, with
paragraph, bulleted and numbered list lines indented two spaces per depth
level; heading lines are never indented; embed blocks and unmapped kinds
produce no line; a paragraph with no text content still produces an empty
line.  The code-side loop equals the spec-side per-block rendering. -/
theorem C7_markdown_conversion (blocks : List MdBlock) :
    convertBlocksToMarkdown blocks = toMarkdownSpec blocks := by
  unfold convertBlocksToMarkdown toMarkdownSpec
  rw [foldl_append_eq blockLines blocks [], List.nil_append]
  have h : blockLines = toMarkdownSpecLine := funext blockLines_eq_spec
  rw [h]

/-- C8: every `labeled` (`'section'`) or `grouped` (`'upper_lower'`) section
returned by `parse` has a non-empty header, and every `freeform` (`'text'`)
section has no header. -/
theorem C8_header_invariant (t : Str) (n : Nat) :
    ∀ sec ∈ (parseCellData t n).sections,
      ((sec.type = SectionType.sect ∨ sec.type = SectionType.upper_lower) →
        ∃ h, sec.header = some h ∧ h ≠ []) ∧
      (sec.type = SectionType.text → sec.header = none) := by
  intro sec hsec
  have hinv := parseLines_inv (cellLines t) none (by simp) sec hsec
  constructor
  · intro hor
    refine hinv.2 ?_
    rcases hor with h | h <;> rw [h] <;> simp
  · intro htext
    exact (hinv.1 htext).1

/-- Witness for C8 at the labeled-header input `"A. hi"`. -/
theorem C8_header_invariant_witness :
    ∃ h, (⟨SectionType.sect, some "A. hi".data, [], []⟩ :
        WorkoutSectionData).header = some h ∧ h ≠ [] :=
  (C8_header_invariant "A. hi".data 1
      ⟨SectionType.sect, some "A. hi".data, [], []⟩ (by decide)).1 (Or.inl rfl)

/-- C9: the section parser is total by construction (it is a total function on
all input strings); in particular a final line matching the labeled-header
pattern with nothing after it still yields a section — with empty content and
links — that is present at the end of the output. -/
theorem C9_trailing_header_emitted (t l : Str) (n : Nat)
    (hnl : '\n' ∉ l) (hh : isSectionHeader l = true) :
    ∃ ss, (parseCellData (t ++ '\n' :: l) n).sections =
      ss ++ [⟨SectionType.sect, some (trim l), [], []⟩] := by
  show ∃ ss, parseLines none (cellLines (t ++ '\n' :: l)) = _
  rw [cellLines_append_line hnl]
  have hne : ¬(trim l).isEmpty = true := by
    simp only [List.isEmpty_iff]
    exact isSectionHeader_trim_ne_nil hh
  rw [if_neg hne]
  have hh' : isSectionHeader (trim l) = true := by
    simp only [isSectionHeader, trim_trim]
    simp only [isSectionHeader] at hh
    exact hh
  obtain ⟨ss, hss⟩ := parseLines_concat_header (cellLines t) none (trim l) hh'
  rw [trim_trim] at hss
  exact ⟨ss, hss⟩

/-- Witness for C9: `"x\nA."` ends with a bare header line and the parse ends
with the corresponding empty labeled section. -/
theorem C9_trailing_header_emitted_witness :
    ∃ ss, (parseCellData ("x".data ++ '\n' :: "A.".data) 1).sections =
      ss ++ [⟨SectionType.sect, some (trim "A.".data), [], []⟩] :=
  C9_trailing_header_emitted "x".data "A.".data 1 (by decide) (by decide)

/-- C10: every freeform (`'text'`) section returned by `parse` has at most one
content line. -/
theorem C10_freeform_single_content_line (t : Str) (n : Nat) :
    ∀ sec ∈ (parseCellData t n).sections,
      sec.type = SectionType.text → sec.content.length ≤ 1 :=
  fun sec hsec htext =>
    ((parseLines_inv (cellLines t) none (by simp) sec hsec).1 htext).2

/-- Witness for C10 at the freeform input `"hello"`. -/
theorem C10_freeform_single_content_line_witness :
    (⟨SectionType.text, none, ["hello".data], []⟩ :
      WorkoutSectionData).content.length ≤ 1 :=
  C10_freeform_single_content_line "hello".data 1
    ⟨SectionType.text, none, ["hello".data], []⟩ (by decide) (by decide)

end Workout
